import Mathlib

/-!
Shallow embedding of the semantic-retrieval core of the
Intelligent-Complaint-Analysis repository.

Conventions of the embedding:
* Python strings are modelled as `List Char`; `str.strip` becomes `pyStrip`,
  `" ".join` becomes `joinSp`, `len` becomes `List.length`.
* NLTK's `sent_tokenize` is an external library call, so the chunking
  functions take the tokenized sentence list as their input.
* Floating-point numbers are modelled over `ℚ`; the FAISS flat inner-product
  index is modelled by its documented exact brute-force semantics.
-/

/-- Python `str.strip` on a `List Char` string: drop whitespace from both
ends. -/
def pyStrip (l : List Char) : List Char :=
  ((l.dropWhile Char.isWhitespace).reverse.dropWhile Char.isWhitespace).reverse

/-- Python `" ".join` on `List Char` strings: interpose a single space. -/
def joinSp : List (List Char) → List Char
  | [] => []
  | [a] => a
  | a :: b :: t => a ++ ' ' :: joinSp (b :: t)

/-- Accumulator of the sentence loop of `TextChunker.chunk`
(src/src/chunking.py lines 32-49): `chunks` holds the emitted chunks as
sentence lists (the Python code stores their joined text; joining at the end
commutes with emission), `current` is `current_chunk` and `curLen` is
`current_length`. -/
structure TCAcc where
  chunks : List (List (List Char))
  current : List (List Char)
  curLen : Nat
deriving Repr, DecidableEq

/-- One iteration of the sentence loop of `TextChunker.chunk`
(src/src/chunking.py lines 36-49): when `current_length + len(sentence)`
exceeds `chunk_size` the current chunk is emitted (only if its joined,
stripped text is nonempty) and the new chunk is seeded with the last
`overlap` sentences (`current_chunk[-overlap:]`, i.e. `List.rtake`); in
either case the sentence is appended and the running length updated. -/
def tcStep (chunkSize overlap : Nat) (acc : TCAcc) (s : List Char) : TCAcc :=
  if chunkSize < acc.curLen + s.length then
    let chunks :=
      if pyStrip (joinSp acc.current) ≠ [] then acc.chunks ++ [acc.current]
      else acc.chunks
    let seed := if 0 < overlap then acc.current.rtake overlap else []
    { chunks := chunks
      current := seed ++ [s]
      curLen := (seed.map List.length).sum + s.length }
  else
    { chunks := acc.chunks
      current := acc.current ++ [s]
      curLen := acc.curLen + s.length }

/-- The trailing emission of `TextChunker.chunk` (src/src/chunking.py lines
51-55): after the loop, append the remaining `current_chunk` if it is
nonempty. -/
def tcFinish (acc : TCAcc) : List (List (List Char)) :=
  if acc.current = [] then acc.chunks else acc.chunks ++ [acc.current]

/-- The chunk sequence produced by `TextChunker.chunk`
(src/src/chunking.py lines 20-57), as sentence lists: fold the loop over the
sentences, then append the trailing `current_chunk` if it is nonempty.  The
early return `if not text.strip(): return []` is subsumed: a whitespace-only
text tokenizes to no sentences, and the fold then yields `[]`. -/
def chunkLists (chunkSize overlap : Nat) (sentences : List (List Char)) :
    List (List (List Char)) :=
  tcFinish (sentences.foldl (tcStep chunkSize overlap) ⟨[], [], 0⟩)

/-- A chunk record `{"text": ..., "metadata": ...}` as emitted by
`TextChunker.chunk` (src/src/chunking.py lines 40-43 and 52-55); the
metadata dictionary is modelled as an association list. -/
structure PyChunk where
  text : List Char
  metadata : List (String × String)
deriving Repr, DecidableEq

/-- `TextChunker.chunk` (src/src/chunking.py lines 20-57): every emitted
chunk carries its joined and stripped text together with the parent
`metadata` mapping, unchanged. -/
def TextChunker.chunk (chunkSize overlap : Nat) (sentences : List (List Char))
    (metadata : List (String × String)) : List PyChunk :=
  (chunkLists chunkSize overlap sentences).map
    (fun c => ⟨pyStrip (joinSp c), metadata⟩)

/-- Inner product of two vectors, the score computed by `faiss.IndexFlatIP`
(numpy rows are modelled as `List ℚ`). -/
def dot (a b : List ℚ) : ℚ := (List.zipWith (fun x y => x * y) a b).sum

/-- Ranking order modelling the exact brute-force search of
`faiss.IndexFlatIP` over (slot, score) pairs: higher score first, ties by
ascending insertion slot. -/
def hitLE (a b : Nat × ℚ) : Prop := b.2 < a.2 ∨ (a.2 = b.2 ∧ a.1 ≤ b.1)

instance : DecidableRel hitLE := fun a b => by
  unfold hitLE; infer_instance

instance : IsTotal (Nat × ℚ) hitLE := by
  constructor
  intro a b
  rcases lt_trichotomy a.2 b.2 with h | h | h
  · exact Or.inr (Or.inl h)
  · rcases Nat.le_total a.1 b.1 with h1 | h1
    · exact Or.inl (Or.inr ⟨h, h1⟩)
    · exact Or.inr (Or.inr ⟨h.symm, h1⟩)
  · exact Or.inl (Or.inl h)

instance : IsTrans (Nat × ℚ) hitLE := by
  constructor
  intro a b c hab hbc
  rcases hab with hab | ⟨hab, hab1⟩
  · rcases hbc with hbc | ⟨hbc, _⟩
    · exact Or.inl (lt_trans hbc hab)
    · exact Or.inl (hbc ▸ hab)
  · rcases hbc with hbc | ⟨hbc, hbc1⟩
    · exact Or.inl (hab ▸ hbc)
    · exact Or.inr ⟨hab.trans hbc, hab1.trans hbc1⟩

/-- Model of `faiss.IndexFlatIP.search` for a single query row: score every
stored slot by inner product, rank by descending score with ties by
ascending slot, return the first `k` (slot, score) pairs; when fewer than
`k` vectors are stored, FAISS pads the remaining result slots with index
`-1`. -/
def faissSearch (vectors : List (List ℚ)) (q : List ℚ) (k : Nat) :
    List (Int × ℚ) :=
  let ranked := List.insertionSort hitLE
    (vectors.enum.map (fun p => (p.1, dot q p.2)))
  ((ranked.take k).map (fun p => ((p.1 : Int), p.2))) ++
    List.replicate (k - vectors.length) (-1, 0)

/-- `FaissVectorStore` (src/src/vector_store.py lines 9-17): the FAISS flat
index (its fixed dimension and the stored vectors, in insertion order) and
the parallel metadata list, with metadata records of an abstract type. -/
structure FaissVectorStore (M : Type) where
  dim : Nat
  vectors : List (List ℚ)
  metadata : List M
deriving DecidableEq

/-- `FaissVectorStore.add` (src/src/vector_store.py lines 19-35): first the
explicit length-mismatch guard raising `ValueError`, then the FAISS
dimension assertion performed by `index.add` (every row of the `(n, d)`
array must match the index dimension), then the append to both parallel
stores. -/
def FaissVectorStore.add {M : Type} (st : FaissVectorStore M)
    (embeddings : List (List ℚ)) (metadatas : List M) :
    Except String (FaissVectorStore M) :=
  if embeddings.length ≠ metadatas.length then
    .error "Embeddings and metadata length mismatch"
  else if embeddings.any (fun v => v.length ≠ st.dim) then
    .error "faiss dimension assertion"
  else
    .ok { st with vectors := st.vectors ++ embeddings
                  metadata := st.metadata ++ metadatas }

/-- The on-disk state written by `FaissVectorStore.save`: the `index.faiss`
file (the FAISS index carries its dimension and the vectors in insertion
order) plus the pickled `metadata.pkl` list. -/
structure PersistedStore (M : Type) where
  dim : Nat
  vectors : List (List ℚ)
  metadata : List M
deriving DecidableEq

/-- `FaissVectorStore.save` (src/src/vector_store.py lines 37-48):
`faiss.write_index` persists the index and `pickle.dump` persists the
metadata list, as one directory. -/
def FaissVectorStore.save {M : Type} (st : FaissVectorStore M) :
    PersistedStore M :=
  ⟨st.dim, st.vectors, st.metadata⟩

/-- `FaissVectorStore.load` (src/src/vector_store.py lines 50-68):
`faiss.read_index` restores the index, `pickle.load` restores the metadata
list, and the store is assembled from them (`store.index = index;
store.metadata = metadata`).  The code performs no validation of any
kind. -/
def FaissVectorStore.load {M : Type} (p : PersistedStore M) :
    FaissVectorStore M :=
  ⟨p.dim, p.vectors, p.metadata⟩

/-- `FaissVectorStore.search` (src/src/vector_store.py lines 70-96) for a
single query (the Python code maps the same loop over each row of a query
batch): call the FAISS index, skip padding entries (`if idx == -1:
continue`), and pair each returned score with `self.metadata[idx]`.  The
Python list indexing is modelled by `getD`; its default is never reached
when the parallel-store invariant holds. -/
def FaissVectorStore.search {M : Type} [Inhabited M] (st : FaissVectorStore M)
    (q : List ℚ) (k : Nat) : List (ℚ × M) :=
  ((faissSearch st.vectors q k).filter (fun p => p.1 ≠ -1)).map
    (fun p => (p.2, st.metadata.getD p.1.toNat default))

/-- Python `str.split()` with no separator: split on whitespace runs,
dropping empty words. -/
def pyWords (s : List Char) : List (List Char) :=
  (s.splitOnP Char.isWhitespace).filter (fun w => w ≠ [])

/-- Accumulator of the sentence loop of `EmbeddingModel._chunk_text`
(src/src/embedding.py lines 26-36): `chunks`, `current_chunk` (as a
sentence list) and the running word count `length`. -/
structure EmbAcc where
  chunks : List (List Char)
  current : List (List Char)
  len : Nat
deriving Repr, DecidableEq

/-- One iteration of the sentence loop of `EmbeddingModel._chunk_text`
(src/src/embedding.py lines 28-36): if the word budget still fits, append
the sentence; otherwise emit the joined current chunk — even when it is
empty — and restart from the sentence alone. -/
def embStep (maxWords : Nat) (acc : EmbAcc) (s : List Char) : EmbAcc :=
  let words := pyWords s
  if acc.len + words.length ≤ maxWords then
    { acc with current := acc.current ++ [s], len := acc.len + words.length }
  else
    { chunks := acc.chunks ++ [joinSp acc.current]
      current := [s]
      len := words.length }

/-- `EmbeddingModel._chunk_text` (src/src/embedding.py lines 24-41) on the
tokenized sentence list: fold the loop over the sentences, then append the
joined trailing chunk when the trailing sentence list is nonempty. -/
def EmbeddingModel.chunkText (maxWords : Nat)
    (sentences : List (List Char)) : List (List Char) :=
  let f := sentences.foldl (embStep maxWords) ⟨[], [], 0⟩
  if f.current = [] then f.chunks else f.chunks ++ [joinSp f.current]

/-- The chunk batch that `EmbeddingModel.embed_texts`
(src/src/embedding.py lines 43-55) submits to `model.encode`: the
concatenation of `_chunk_text` over all input texts, each text given by its
tokenized sentence list (`model.encode` itself is external). -/
def EmbeddingModel.embedTextsChunks (maxWords : Nat)
    (texts : List (List (List Char))) : List (List Char) :=
  (texts.map (EmbeddingModel.chunkText maxWords)).flatten

/-- One row of the sampled complaint DataFrame as consumed by
`ComplaintVectorStore.chunk_texts` (src/src/create_vector_store.py lines
151-166): the `iterrows` index, the `Complaint ID` and `Product` fields,
and the text column. -/
structure ComplaintRow where
  idx : Nat
  complaint_id : Nat
  product : String
  text : List Char
deriving DecidableEq

/-- The metadata record appended per chunk by
`ComplaintVectorStore.chunk_texts` (src/src/create_vector_store.py lines
160-166). -/
structure CVMeta where
  complaint_id : Nat
  product_category : String
  chunk_index : Nat
  total_chunks : Nat
  original_index : Nat
deriving DecidableEq, Repr

/-- `ComplaintVectorStore.chunk_texts` (src/src/create_vector_store.py
lines 138-169), parameterized by the external
`RecursiveCharacterTextSplitter.split_text`: for every row, every chunk of
its text is appended to `self.chunks`, and a metadata record carrying the
selected row fields plus `chunk_index` (the chunk's position in the row's
split) and `total_chunks` (the size of the row's split) is appended to
`self.metadata`. -/
def ComplaintVectorStore.chunk_texts (split : List Char → List (List Char))
    (rows : List ComplaintRow) : List (List Char) × List CVMeta :=
  rows.foldl
    (fun acc row =>
      let tcs := split row.text
      (acc.1 ++ tcs,
       acc.2 ++ (List.range tcs.length).map
         (fun ci => ⟨row.complaint_id, row.product, ci, tcs.length, row.idx⟩)))
    ([], [])

/-- The state of `VectorStoreManager` (src/src/rag_agent/vector_store.py
lines 13-28): the LangChain vector store is `some` backend once created or
loaded and `none` before; the backend itself is external and is modelled
abstractly by its `similarity_search` function from (query, k, optional
metadata filter) to a document list. -/
structure VectorStoreManager (D : Type) where
  vector_store : Option (String → Nat → Option (String × String) → List D)

/-- `VectorStoreManager.search` (src/src/rag_agent/vector_store.py lines
112-143): raise `ValueError` when no vector store is loaded, otherwise
delegate to the backend's `similarity_search`, passing the metadata filter
through when one is given. -/
def VectorStoreManager.search {D : Type} (m : VectorStoreManager D)
    (query : String) (k : Nat) (filterDict : Option (String × String)) :
    Except String (List D) :=
  match m.vector_store with
  | none => .error "Vector store not initialized. Load or create one first."
  | some s => .ok (s query k filterDict)

/-- The `ComplaintRAGAgent` state (src/src/rag_agent/agent.py lines 12-29):
the vector store manager and the `is_initialized` flag.  The query engine
and the LLM are external collaborators and play no part in whether a query
is accepted. -/
structure ComplaintRAGAgent (D : Type) where
  manager : VectorStoreManager D
  is_initialized : Bool

/-- `ComplaintRAGAgent.ask` (src/src/rag_agent/agent.py lines 105-135)
composed with `RAGQueryEngine.query` (src/src/rag_agent/query_engine.py
lines 66-93): reject with `RuntimeError` unless `is_initialized`; otherwise
build `filter_dict = ("product", product_filter)` when a product filter is
given and retrieve through `VectorStoreManager.search` (the LLM answer step
is external and consumes the retrieved documents). -/
def ComplaintRAGAgent.ask {D : Type} (a : ComplaintRAGAgent D)
    (question : String) (product : Option String) (k : Nat) :
    Except String (List D) :=
  if a.is_initialized = false then
    .error "RAG Agent not initialized. Call initialize() first."
  else
    a.manager.search question k (product.map (fun p => ("product", p)))

/-- `ComplaintRAGAgent.initialize` (src/src/rag_agent/agent.py lines
31-59): whether an existing store is loaded or a new one is built, the
manager's vector store is set to a backend, the query engine is created,
and `is_initialized` is set to `True` at the end. -/
def ComplaintRAGAgent.initialize_agent {D : Type} (a : ComplaintRAGAgent D)
    (backend : String → Nat → Option (String × String) → List D) :
    ComplaintRAGAgent D :=
  { a with manager := ⟨some backend⟩, is_initialized := true }

/-! ## Sanity checks of the chunker embedding -/

example :
    chunkLists 10 1 [['a','a','a','a','a','a'], ['b','b','b','b','b','b'],
      ['c','c','c','c','c','c']] =
    [[['a','a','a','a','a','a']],
     [['a','a','a','a','a','a'], ['b','b','b','b','b','b']],
     [['b','b','b','b','b','b'], ['c','c','c','c','c','c']]] := by
  decide

example :
    chunkLists 10 0 [['a','a','a','a','a','a'], ['b','b','b','b','b','b'],
      ['c','c','c','c','c','c']] =
    [[['a','a','a','a','a','a']], [['b','b','b','b','b','b']],
     [['c','c','c','c','c','c']]] := by
  decide

/-! ## Helper lemmas on stripping and joining -/

theorem pyStrip_eq_nil_iff {l : List Char} :
    pyStrip l = [] ↔ ∀ c ∈ l, c.isWhitespace := by
  unfold pyStrip
  rw [List.reverse_eq_nil_iff, List.dropWhile_eq_nil_iff]
  constructor
  · intro h c hc
    by_cases hdrop : c ∈ l.dropWhile Char.isWhitespace
    · exact h c (List.mem_reverse.mpr hdrop)
    · have hsplit := List.takeWhile_append_dropWhile
        (p := Char.isWhitespace) (l := l)
      rw [← hsplit] at hc
      rcases List.mem_append.mp hc with htk | hdk
      · exact List.mem_takeWhile_imp htk
      · exact absurd hdk hdrop
  · intro h c hc
    exact h c ((List.dropWhile_sublist _).subset (List.mem_reverse.mp hc))

theorem mem_joinSp : ∀ (l : List (List Char)) (a : List Char), a ∈ l →
    ∀ c ∈ a, c ∈ joinSp l
  | [], _, ha, _, _ => absurd ha (List.not_mem_nil _)
  | [b], a, ha, c, hc => by
      rcases List.mem_singleton.mp ha with rfl
      simpa [joinSp] using hc
  | b :: b' :: t, a, ha, c, hc => by
      rcases List.mem_cons.mp ha with rfl | ha'
      · exact List.mem_append.mpr (Or.inl hc)
      · exact List.mem_append.mpr (Or.inr
          (List.mem_cons.mpr (Or.inr (mem_joinSp (b' :: t) a ha' c hc))))

theorem pyStrip_joinSp_ne_nil {l : List (List Char)} (hne : l ≠ [])
    (hs : ∀ s ∈ l, pyStrip s ≠ []) : pyStrip (joinSp l) ≠ [] := by
  intro hcontra
  have hall := pyStrip_eq_nil_iff.mp hcontra
  rcases List.exists_mem_of_ne_nil l hne with ⟨a, ha⟩
  have hsa := hs a ha
  rw [ne_eq, pyStrip_eq_nil_iff] at hsa
  push_neg at hsa
  rcases hsa with ⟨c, hc, hcw⟩
  exact hcw (hall c (mem_joinSp l a ha c hc))

/-! ## C3: persistence round-trip -/

/-- C3: for every built index, loading the result of saving it yields an
index equal to the original — the same vectors in the same insertion order
and the same metadata list — and hence identical search results (same
order, same scores) for any query vector and any k. -/
theorem C3_persistence_round_trip {M : Type} [Inhabited M]
    (st : FaissVectorStore M) :
    FaissVectorStore.load (FaissVectorStore.save st) = st ∧
    ∀ q k, (FaissVectorStore.load (FaissVectorStore.save st)).search q k =
      st.search q k :=
  ⟨rfl, fun _ _ => rfl⟩

/-! ## C4: load performs no validation -/

/-- C4 counterexample: a persisted state whose vector count (1) and
metadata count (2) disagree, on which `load` nevertheless returns an index
— carrying the mismatched stores verbatim — instead of failing with a
corruption/format error; `load` likewise never compares the stored
dimension with a caller expectation (it takes none). -/
theorem C4_counterexample :
    (FaissVectorStore.load
      (⟨1, [[(1 : ℚ)]], ["a", "b"]⟩ : PersistedStore String)).vectors.length
        = 1 ∧
    (FaissVectorStore.load
      (⟨1, [[(1 : ℚ)]], ["a", "b"]⟩ : PersistedStore String)).metadata.length
        = 2 :=
  ⟨rfl, rfl⟩

/-- C4 amended: `load` performs no validation at all — for every persisted
state, including one whose vector and metadata counts disagree or whose
stored dimension differs from what the caller expects, `load` returns an
index holding exactly the stored dimension, vectors and metadata; in
particular a count mismatch survives the load unchanged instead of raising
a corruption error. -/
theorem C4_load_never_validates {M : Type} (p : PersistedStore M) :
    (FaissVectorStore.load p).dim = p.dim ∧
    (FaissVectorStore.load p).vectors = p.vectors ∧
    (FaissVectorStore.load p).metadata = p.metadata ∧
    (p.vectors.length ≠ p.metadata.length →
      (FaissVectorStore.load p).vectors.length ≠
        (FaissVectorStore.load p).metadata.length) :=
  ⟨rfl, rfl, rfl, fun h => h⟩

/-- Witness for C4 amended at a concrete mismatched persisted state. -/
theorem C4_load_never_validates_witness :
    (FaissVectorStore.load
      (⟨1, [[(1 : ℚ)]], ["a", "b"]⟩ : PersistedStore String)).vectors.length ≠
    (FaissVectorStore.load
      (⟨1, [[(1 : ℚ)]], ["a", "b"]⟩ : PersistedStore String)).metadata.length :=
  (C4_load_never_validates _).2.2.2 (by decide)

/-! ## C5: add with mismatched lengths -/

/-- C5: `add` with differing vector/metadata counts fails with the
length-mismatch `ValueError` and yields no mutated store; with equal
counts (and rows of the index dimension, which FAISS asserts) it appends
the n entries to both parallel stores, preserving the invariant that the
number of stored vectors equals the number of stored metadata records. -/
theorem C5_add_length_guard {M : Type} :
    (∀ (st : FaissVectorStore M) e m, e.length ≠ m.length →
      st.add e m = Except.error "Embeddings and metadata length mismatch") ∧
    (∀ (st : FaissVectorStore M) e m, e.length = m.length →
      (∀ v ∈ e, v.length = st.dim) →
      st.add e m = Except.ok
        { st with vectors := st.vectors ++ e, metadata := st.metadata ++ m } ∧
      (st.metadata.length = st.vectors.length →
        (st.metadata ++ m).length = (st.vectors ++ e).length)) := by
  constructor
  · intro st e m h
    unfold FaissVectorStore.add
    rw [if_pos h]
  · intro st e m h hd
    refine ⟨?_, ?_⟩
    · unfold FaissVectorStore.add
      rw [if_neg (by simpa using h), if_neg ?_]
      simp only [List.any_eq_true, not_exists, not_and]
      push_neg
      intro v hv
      simpa using hd v hv
    · intro hinv
      simp [List.length_append, h, hinv]

/-- Witness for C5 at concrete inputs: a mismatched call errors, an equal-
length call appends to both stores and keeps the counts equal. -/
theorem C5_add_length_guard_witness :
    FaissVectorStore.add (⟨1, [], []⟩ : FaissVectorStore ℕ) [[(1 : ℚ)]] [] =
      Except.error "Embeddings and metadata length mismatch" ∧
    FaissVectorStore.add (⟨1, [], []⟩ : FaissVectorStore ℕ) [[(1 : ℚ)]] [7] =
      Except.ok ⟨1, [[(1 : ℚ)]], [7]⟩ ∧
    (([] : List ℕ) ++ [7]).length = (([] : List (List ℚ)) ++ [[(1 : ℚ)]]).length := by
  refine ⟨C5_add_length_guard.1 _ _ _ (by decide), ?_, ?_⟩
  · exact (C5_add_length_guard.2 (⟨1, [], []⟩ : FaissVectorStore ℕ)
      [[(1 : ℚ)]] [7] rfl
      (by intro v hv; rcases List.mem_singleton.mp hv with rfl; rfl)).1
  · exact (C5_add_length_guard.2 (⟨1, [], []⟩ : FaissVectorStore ℕ)
      [[(1 : ℚ)]] [7] rfl
      (by intro v hv; rcases List.mem_singleton.mp hv with rfl; rfl)).2 rfl

/-! ## C9: only the Ready state accepts queries -/

/-- C9: whenever `is_initialized` is false — that is, before a successful
`initialize` has completed — `ask` fails with the not-initialized
`RuntimeError`; any accepted (non-error) query implies the agent was Ready;
and once `initialize` completes, queries are accepted. -/
theorem C9_ready_gate {D : Type} :
    (∀ (a : ComplaintRAGAgent D) q p k, a.is_initialized = false →
      a.ask q p k =
        Except.error "RAG Agent not initialized. Call initialize() first.") ∧
    (∀ (a : ComplaintRAGAgent D) q p k r, a.ask q p k = Except.ok r →
      a.is_initialized = true) ∧
    (∀ (a : ComplaintRAGAgent D) backend q p k,
      ∃ r, (a.initialize_agent backend).ask q p k = Except.ok r) := by
  refine ⟨?_, ?_, ?_⟩
  · intro a q p k h
    unfold ComplaintRAGAgent.ask
    rw [if_pos h]
  · intro a q p k r h
    by_cases hi : a.is_initialized = false
    · unfold ComplaintRAGAgent.ask at h
      rw [if_pos hi] at h
      exact absurd h (by simp)
    · simpa using hi
  · intro a backend q p k
    exact ⟨backend q k (p.map (fun x => ("product", x))), rfl⟩

/-- Witness for C9: a fresh agent rejects a query with the not-initialized
error, and an agent holding a loaded store with the flag set accepts it. -/
theorem C9_ready_gate_witness :
    ComplaintRAGAgent.ask (⟨⟨none⟩, false⟩ : ComplaintRAGAgent ℕ) "q" none 5 =
      Except.error "RAG Agent not initialized. Call initialize() first." ∧
    (⟨⟨some (fun _ _ _ => [0])⟩, true⟩ : ComplaintRAGAgent ℕ).is_initialized
      = true :=
  ⟨C9_ready_gate.1 _ "q" none 5 rfl,
   C9_ready_gate.2.1 (⟨⟨some (fun _ _ _ => [0])⟩, true⟩ : ComplaintRAGAgent ℕ)
     "q" none 5 [0] rfl⟩

/-! ## C10: the embedding chunker emits an empty first chunk -/

theorem embFold_chunks_grow (maxWords : Nat) (l : List (List Char)) :
    ∀ acc : EmbAcc, ∃ t, (l.foldl (embStep maxWords) acc).chunks =
      acc.chunks ++ t := by
  induction l with
  | nil => intro acc; exact ⟨[], by simp⟩
  | cons s l ih =>
    intro acc
    rcases ih (embStep maxWords acc s) with ⟨t, ht⟩
    by_cases h : acc.len + (pyWords s).length ≤ maxWords
    · refine ⟨t, ?_⟩
      rw [List.foldl_cons, ht]
      simp [embStep, h]
    · refine ⟨joinSp acc.current :: t, ?_⟩
      rw [List.foldl_cons, ht]
      simp [embStep, h]

/-- C10: whenever the first sentence of a text holds more than `max_words`
words, `_chunk_text` opens a fresh chunk for that sentence while emitting
the still-empty current chunk, so the returned chunk list starts with the
empty string; `embed_texts` consequently submits an empty-string chunk to
the embedding model. -/
theorem C10_empty_first_chunk (maxWords : Nat) (s : List Char)
    (rest : List (List Char)) (h : maxWords < (pyWords s).length)
    (others : List (List (List Char))) :
    (EmbeddingModel.chunkText maxWords (s :: rest)).head? = some [] ∧
    [] ∈ EmbeddingModel.embedTextsChunks maxWords ((s :: rest) :: others) := by
  have hstep : (embStep maxWords ⟨[], [], 0⟩ s).chunks = [[]] := by
    unfold embStep
    rw [if_neg (by simpa using Nat.not_le.mpr h)]
    rfl
  have hmain : (EmbeddingModel.chunkText maxWords (s :: rest)).head? = some [] := by
    unfold EmbeddingModel.chunkText
    simp only [List.foldl_cons]
    rcases embFold_chunks_grow maxWords rest (embStep maxWords ⟨[], [], 0⟩ s)
      with ⟨t, ht⟩
    rw [ht, hstep]
    by_cases hc :
        (rest.foldl (embStep maxWords) (embStep maxWords ⟨[], [], 0⟩ s)).current
          = []
    · rw [if_pos hc]
      rfl
    · rw [if_neg hc]
      rfl
  refine ⟨hmain, ?_⟩
  have hmem : [] ∈ EmbeddingModel.chunkText maxWords (s :: rest) := by
    cases hl : EmbeddingModel.chunkText maxWords (s :: rest) with
    | nil => rw [hl] at hmain; exact absurd hmain (by simp)
    | cons a t =>
      rw [hl] at hmain
      simp only [List.head?_cons, Option.some.injEq] at hmain
      rw [← hmain]
      exact List.mem_cons_self a t
  unfold EmbeddingModel.embedTextsChunks
  rw [List.map_cons]
  exact List.mem_flatten.mpr ⟨_, List.mem_cons_self _ _, hmem⟩

/-- Witness for C10: with `max_words = 1` and a first sentence of two
words, the first chunk is the empty string and the submitted batch contains
it. -/
theorem C10_empty_first_chunk_witness :
    (EmbeddingModel.chunkText 1 [['a', ' ', 'b']]).head? = some [] ∧
    [] ∈ EmbeddingModel.embedTextsChunks 1 [[['a', ' ', 'b']]] :=
  C10_empty_first_chunk 1 ['a', ' ', 'b'] [] (by decide) []

/-! ## C8: which chunker adds which metadata fields -/

/-- C8 counterexample: on a one-sentence document with parent metadata
`[("product", "Card")]`, `TextChunker.chunk` emits exactly one chunk whose
metadata is the parent metadata alone — there is no `chunk_index` (and no
`total_chunks`) key — refuting the claim that every emitted chunk carries
the parent metadata plus position fields. -/
theorem C8_counterexample :
    (TextChunker.chunk 500 1 [['h', 'i', '.']] [("product", "Card")]).map
        PyChunk.metadata = [[("product", "Card")]] ∧
    ([("product", "Card")] : List (String × String)).lookup "chunk_index"
      = none := by
  exact ⟨by decide, by decide⟩

theorem chunk_texts_fold_eq (split : List Char → List (List Char))
    (rows : List ComplaintRow) :
    ∀ acc : List (List Char) × List CVMeta,
      rows.foldl (fun acc row =>
        let tcs := split row.text
        (acc.1 ++ tcs,
         acc.2 ++ (List.range tcs.length).map
           (fun ci => ⟨row.complaint_id, row.product, ci, tcs.length,
             row.idx⟩))) acc =
      (acc.1 ++ rows.flatMap (fun row => split row.text),
       acc.2 ++ rows.flatMap (fun row =>
         (List.range (split row.text).length).map
           (fun ci => ⟨row.complaint_id, row.product, ci,
             (split row.text).length, row.idx⟩))) := by
  induction rows with
  | nil => intro acc; simp
  | cons r rows ih =>
    intro acc
    rw [List.foldl_cons, ih]
    simp [List.flatMap_cons, List.append_assoc]

theorem chunk_texts_spec (split : List Char → List (List Char))
    (rows : List ComplaintRow) :
    ComplaintVectorStore.chunk_texts split rows =
      (rows.flatMap (fun row => split row.text),
       rows.flatMap (fun row =>
         (List.range (split row.text).length).map
           (fun ci => ⟨row.complaint_id, row.product, ci,
             (split row.text).length, row.idx⟩))) := by
  unfold ComplaintVectorStore.chunk_texts
  rw [chunk_texts_fold_eq]
  simp

/-- C8 amended: the two chunking implementations split the claimed fields
between them.  `TextChunker.chunk` attaches the parent metadata unchanged
to every chunk but adds no `chunk_index`/`total_chunks`; and
`ComplaintVectorStore.chunk_texts` attaches `chunk_index` (the chunk's
position within its parent document's split) and `total_chunks` (the size
of that split, so `chunk_index < total_chunks`) while keeping the chunk
and metadata stores aligned, but it copies only the selected parent fields
(`complaint_id`, `product_category`, `original_index`) rather than the
full parent metadata. -/
theorem C8_metadata_fields :
    (∀ (chunkSize overlap : Nat) (sentences : List (List Char))
       (md : List (String × String)) (c : PyChunk),
       c ∈ TextChunker.chunk chunkSize overlap sentences md →
         c.metadata = md) ∧
    (∀ (split : List Char → List (List Char)) (rows : List ComplaintRow),
      (ComplaintVectorStore.chunk_texts split rows).1.length =
        (ComplaintVectorStore.chunk_texts split rows).2.length ∧
      ∀ m ∈ (ComplaintVectorStore.chunk_texts split rows).2,
        m.chunk_index < m.total_chunks ∧
        ∃ row ∈ rows, m.complaint_id = row.complaint_id ∧
          m.product_category = row.product ∧
          m.original_index = row.idx ∧
          m.total_chunks = (split row.text).length) := by
  constructor
  · intro chunkSize overlap sentences md c hc
    unfold TextChunker.chunk at hc
    rcases List.mem_map.mp hc with ⟨c', _, rfl⟩
    rfl
  · intro split rows
    rw [chunk_texts_spec]
    constructor
    · rw [List.length_flatMap, List.length_flatMap]
      congr 1
      apply List.map_congr_left
      intro r _
      simp
    · intro m hm
      rcases List.mem_flatMap.mp hm with ⟨row, hrow, hmem⟩
      rcases List.mem_map.mp hmem with ⟨ci, hci, rfl⟩
      exact ⟨List.mem_range.mp hci, row, hrow, rfl, rfl, rfl, rfl⟩

/-- Witness for C8 amended: the sentence chunker's single chunk keeps the
parent metadata verbatim, and a one-row `chunk_texts` run yields aligned
stores whose metadata record places the chunk at position 0 of 1. -/
theorem C8_metadata_fields_witness :
    PyChunk.metadata ⟨['h', 'i'], [("k", "v")]⟩ = [("k", "v")] ∧
    (ComplaintVectorStore.chunk_texts (fun t => [t])
      [⟨0, 5, "Card", ['x']⟩]).1.length =
      (ComplaintVectorStore.chunk_texts (fun t => [t])
        [⟨0, 5, "Card", ['x']⟩]).2.length ∧
    (⟨5, "Card", 0, 1, 0⟩ : CVMeta).chunk_index <
      (⟨5, "Card", 0, 1, 0⟩ : CVMeta).total_chunks := by
  refine ⟨?_, (C8_metadata_fields.2 (fun t => [t]) [⟨0, 5, "Card", ['x']⟩]).1, ?_⟩
  · exact C8_metadata_fields.1 500 0 [['h', 'i']] [("k", "v")]
      ⟨['h', 'i'], [("k", "v")]⟩ (by decide)
  · exact (((C8_metadata_fields.2 (fun t => [t]) [⟨0, 5, "Card", ['x']⟩]).2
      ⟨5, "Card", 0, 1, 0⟩) (by decide)).1

/-! ## C2: search length, score ordering and tie-breaking -/

theorem faissSearch_filter (vectors : List (List ℚ)) (q : List ℚ) (k : Nat) :
    (faissSearch vectors q k).filter (fun p => p.1 ≠ -1) =
      ((List.insertionSort hitLE
        (vectors.enum.map (fun p => (p.1, dot q p.2)))).take k).map
        (fun p => ((p.1 : Int), p.2)) := by
  unfold faissSearch
  rw [List.filter_append]
  have h1 : List.filter (fun p => p.1 ≠ -1)
      (List.replicate (k - vectors.length) ((-1 : Int), (0 : ℚ))) = [] := by
    rw [List.filter_replicate]
    simp
  have h2 : List.filter (fun p => p.1 ≠ -1)
      (((List.insertionSort hitLE
        (vectors.enum.map (fun p => (p.1, dot q p.2)))).take k).map
        (fun p => ((p.1 : Int), p.2))) =
      ((List.insertionSort hitLE
        (vectors.enum.map (fun p => (p.1, dot q p.2)))).take k).map
        (fun p => ((p.1 : Int), p.2)) := by
    apply List.filter_eq_self.mpr
    intro p hp
    rcases List.mem_map.mp hp with ⟨r, _, rfl⟩
    simp only [decide_eq_true_eq]
    omega
  rw [h1, h2, List.append_nil]

theorem rankedList_facts (vectors : List (List ℚ)) (q : List ℚ) :
    (List.insertionSort hitLE
        (vectors.enum.map (fun p => (p.1, dot q p.2)))).length
      = vectors.length ∧
    List.Pairwise hitLE
      (List.insertionSort hitLE
        (vectors.enum.map (fun p => (p.1, dot q p.2)))) ∧
    List.Pairwise (fun a b => a.1 ≠ b.1)
      (List.insertionSort hitLE
        (vectors.enum.map (fun p => (p.1, dot q p.2)))) ∧
    ∀ p ∈ List.insertionSort hitLE
      (vectors.enum.map (fun p => (p.1, dot q p.2))), p.1 < vectors.length := by
  have hfst : (vectors.enum.map (fun p => (p.1, dot q p.2))).map Prod.fst =
      List.range vectors.length := by
    rw [List.map_map]
    calc List.map (Prod.fst ∘ fun p => (p.1, dot q p.2)) vectors.enum
        = List.map Prod.fst vectors.enum := by
          apply List.map_congr_left; intro p _; rfl
      _ = List.range vectors.length := List.enum_map_fst _
  have hperm := List.perm_insertionSort hitLE
    (vectors.enum.map (fun p => (p.1, dot q p.2)))
  have hpermfst : ((List.insertionSort hitLE
      (vectors.enum.map (fun p => (p.1, dot q p.2)))).map Prod.fst).Perm
      (List.range vectors.length) := by
    rw [← hfst]
    exact hperm.map Prod.fst
  refine ⟨?_, List.sorted_insertionSort hitLE _, ?_, ?_⟩
  · rw [hperm.length_eq, List.length_map, List.enum_length]
  · have hnd : ((List.insertionSort hitLE
        (vectors.enum.map (fun p => (p.1, dot q p.2)))).map Prod.fst).Nodup :=
      hpermfst.nodup_iff.mpr (List.nodup_range _)
    exact List.pairwise_map.mp hnd
  · intro p hp
    have h1 : p.1 ∈ (List.insertionSort hitLE
        (vectors.enum.map (fun p => (p.1, dot q p.2)))).map Prod.fst :=
      List.mem_map_of_mem Prod.fst hp
    exact List.mem_range.mp (hpermfst.mem_iff.mp h1)

/-- C2: on a store satisfying the parallel-array invariant, `search`
returns exactly `min k total_entries` (score, metadata) pairs; the scores
are non-increasing along the result; the FAISS result entries underlying it
(padding skipped) are strictly ranked — descending by score with ties
broken by ascending insertion slot; and every returned slot is a valid
index into the metadata list. -/
theorem C2_search_ordering {M : Type} [Inhabited M] (st : FaissVectorStore M)
    (q : List ℚ) (k : Nat) (hm : st.metadata.length = st.vectors.length) :
    (st.search q k).length = min k st.vectors.length ∧
    (st.search q k).Pairwise (fun a b => b.1 ≤ a.1) ∧
    ((faissSearch st.vectors q k).filter (fun p => p.1 ≠ -1)).Pairwise
      (fun a b => b.2 < a.2 ∨ (a.2 = b.2 ∧ a.1 < b.1)) ∧
    ∀ p ∈ (faissSearch st.vectors q k).filter (fun p => p.1 ≠ -1),
      p.1.toNat < st.metadata.length := by
  obtain ⟨hlen, hsorted, hne, hlt⟩ := rankedList_facts st.vectors q
  have hfilter := faissSearch_filter st.vectors q k
  have htake : List.Pairwise (fun a b => hitLE a b ∧ a.1 ≠ b.1)
      ((List.insertionSort hitLE
        (st.vectors.enum.map (fun p => (p.1, dot q p.2)))).take k) :=
    List.Pairwise.sublist (List.take_sublist k _) (hsorted.and hne)
  refine ⟨?_, ?_, ?_, ?_⟩
  · unfold FaissVectorStore.search
    rw [hfilter, List.length_map, List.length_map, List.length_take, hlen]
  · unfold FaissVectorStore.search
    rw [hfilter, List.pairwise_map, List.pairwise_map]
    apply htake.imp
    rintro a b ⟨hab, _⟩
    rcases hab with h | ⟨h, _⟩
    · exact le_of_lt h
    · exact le_of_eq h.symm
  · rw [hfilter, List.pairwise_map]
    apply htake.imp
    rintro a b ⟨hab, hne1⟩
    rcases hab with h | ⟨h, h2⟩
    · exact Or.inl h
    · refine Or.inr ⟨h, ?_⟩
      show ((a.1 : Int)) < ((b.1 : Int))
      exact_mod_cast lt_of_le_of_ne h2 hne1
  · intro p hp
    rw [hfilter] at hp
    rcases List.mem_map.mp hp with ⟨r, hr, rfl⟩
    have hr2 := hlt r ((List.take_sublist k _).subset hr)
    rw [hm]
    simpa using hr2

/-- Witness for C2 at a concrete two-entry store and k = 5. -/
theorem C2_search_ordering_witness :
    ((⟨1, [[(1 : ℚ)], [(2 : ℚ)]], ["a", "b"]⟩ : FaissVectorStore String).search
        [(1 : ℚ)] 5).length =
      min 5 (⟨1, [[(1 : ℚ)], [(2 : ℚ)]], ["a", "b"]⟩ :
        FaissVectorStore String).vectors.length ∧
    ((⟨1, [[(1 : ℚ)], [(2 : ℚ)]], ["a", "b"]⟩ : FaissVectorStore String).search
        [(1 : ℚ)] 5).Pairwise (fun a b => b.1 ≤ a.1) ∧
    ((faissSearch (⟨1, [[(1 : ℚ)], [(2 : ℚ)]], ["a", "b"]⟩ :
        FaissVectorStore String).vectors [(1 : ℚ)] 5).filter
      (fun p => p.1 ≠ -1)).Pairwise
        (fun a b => b.2 < a.2 ∨ (a.2 = b.2 ∧ a.1 < b.1)) ∧
    ∀ p ∈ (faissSearch (⟨1, [[(1 : ℚ)], [(2 : ℚ)]], ["a", "b"]⟩ :
        FaissVectorStore String).vectors [(1 : ℚ)] 5).filter
      (fun p => p.1 ≠ -1),
      p.1.toNat < (⟨1, [[(1 : ℚ)], [(2 : ℚ)]], ["a", "b"]⟩ :
        FaissVectorStore String).metadata.length :=
  C2_search_ordering (⟨1, [[(1 : ℚ)], [(2 : ℚ)]], ["a", "b"]⟩ :
    FaissVectorStore String) [(1 : ℚ)] 5 rfl

/-! ## Step equations and invariants of the sentence chunker -/

theorem tcStep_emit (chunkSize overlap : Nat) (acc : TCAcc) (s : List Char)
    (hc : chunkSize < acc.curLen + s.length)
    (hg : pyStrip (joinSp acc.current) ≠ []) :
    tcStep chunkSize overlap acc s =
      ⟨acc.chunks ++ [acc.current],
       (if 0 < overlap then acc.current.rtake overlap else []) ++ [s],
       ((if 0 < overlap then acc.current.rtake overlap else []).map
         List.length).sum + s.length⟩ := by
  unfold tcStep
  rw [if_pos hc, if_pos hg]

theorem tcStep_noemit (chunkSize overlap : Nat) (acc : TCAcc) (s : List Char)
    (hc : chunkSize < acc.curLen + s.length)
    (hg : ¬ pyStrip (joinSp acc.current) ≠ []) :
    tcStep chunkSize overlap acc s =
      ⟨acc.chunks,
       (if 0 < overlap then acc.current.rtake overlap else []) ++ [s],
       ((if 0 < overlap then acc.current.rtake overlap else []).map
         List.length).sum + s.length⟩ := by
  unfold tcStep
  rw [if_pos hc, if_neg hg]

theorem tcStep_app (chunkSize overlap : Nat) (acc : TCAcc) (s : List Char)
    (hc : ¬ chunkSize < acc.curLen + s.length) :
    tcStep chunkSize overlap acc s =
      ⟨acc.chunks, acc.current ++ [s], acc.curLen + s.length⟩ := by
  unfold tcStep
  rw [if_neg hc]

theorem tcStep_curLen (chunkSize overlap : Nat) (acc : TCAcc) (s : List Char)
    (h : acc.curLen = (acc.current.map List.length).sum) :
    (tcStep chunkSize overlap acc s).curLen =
      ((tcStep chunkSize overlap acc s).current.map List.length).sum := by
  by_cases hc : chunkSize < acc.curLen + s.length
  · by_cases hg : pyStrip (joinSp acc.current) ≠ []
    · rw [tcStep_emit chunkSize overlap acc s hc hg]
      simp
    · rw [tcStep_noemit chunkSize overlap acc s hc hg]
      simp
  · rw [tcStep_app chunkSize overlap acc s hc]
    simp [h]

theorem tcStep_chunks_mem (chunkSize overlap : Nat) (acc : TCAcc)
    (s : List Char) (c : List (List Char)) (hmem : c ∈ acc.chunks) :
    c ∈ (tcStep chunkSize overlap acc s).chunks := by
  by_cases hc : chunkSize < acc.curLen + s.length
  · by_cases hg : pyStrip (joinSp acc.current) ≠ []
    · rw [tcStep_emit chunkSize overlap acc s hc hg]
      exact List.mem_append.mpr (Or.inl hmem)
    · rw [tcStep_noemit chunkSize overlap acc s hc hg]
      exact hmem
  · rw [tcStep_app chunkSize overlap acc s hc]
    exact hmem

/-! ## C7: the budget bound fails under overlap seeding -/

/-- C7 counterexample: with `chunk_size = 10` and `overlap = 1` (the
constructor default), on three 6-character sentences the second emitted
chunk holds two whole sentences whose cumulative character length is
12 > 10: the overlap seed plus the new sentence exceed the budget, so a
multi-sentence chunk is emitted above `chunk_size`, refuting the claimed
consequence. -/
theorem C7_counterexample :
    (chunkLists 10 1 [['a','a','a','a','a','a'], ['b','b','b','b','b','b'],
        ['c','c','c','c','c','c']])[1]? =
      some [['a','a','a','a','a','a'], ['b','b','b','b','b','b']] ∧
    1 < ([['a','a','a','a','a','a'], ['b','b','b','b','b','b']] :
        List (List Char)).length ∧
    10 < (([['a','a','a','a','a','a'], ['b','b','b','b','b','b']] :
        List (List Char)).map List.length).sum :=
  ⟨by decide, by decide, by decide⟩

theorem tcFoldA (chunkSize : Nat) (l : List (List Char)) :
    ∀ acc : TCAcc,
      acc.curLen = (acc.current.map List.length).sum →
      (∀ c ∈ acc.chunks, 1 < c.length → (c.map List.length).sum ≤ chunkSize) →
      (1 < acc.current.length → acc.curLen ≤ chunkSize) →
      ∀ c ∈ tcFinish (l.foldl (tcStep chunkSize 0) acc),
        1 < c.length → (c.map List.length).sum ≤ chunkSize := by
  induction l with
  | nil =>
    intro acc hlen hchunks hcur c hc
    rw [List.foldl_nil] at hc
    unfold tcFinish at hc
    by_cases hcure : acc.current = []
    · rw [if_pos hcure] at hc
      exact hchunks c hc
    · rw [if_neg hcure] at hc
      rcases List.mem_append.mp hc with h | h
      · exact hchunks c h
      · rcases List.mem_singleton.mp h with rfl
        intro h1
        rw [← hlen]
        exact hcur h1
  | cons x l ih =>
    intro acc hlen hchunks hcur
    rw [List.foldl_cons]
    apply ih (tcStep chunkSize 0 acc x)
      (tcStep_curLen chunkSize 0 acc x hlen)
    · intro c hc
      by_cases hcond : chunkSize < acc.curLen + x.length
      · by_cases hg : pyStrip (joinSp acc.current) ≠ []
        · rw [tcStep_emit chunkSize 0 acc x hcond hg] at hc
          rcases List.mem_append.mp hc with h | h
          · exact hchunks c h
          · rcases List.mem_singleton.mp h with rfl
            intro h1
            rw [← hlen]
            exact hcur h1
        · rw [tcStep_noemit chunkSize 0 acc x hcond hg] at hc
          exact hchunks c hc
      · rw [tcStep_app chunkSize 0 acc x hcond] at hc
        exact hchunks c hc
    · by_cases hcond : chunkSize < acc.curLen + x.length
      · by_cases hg : pyStrip (joinSp acc.current) ≠ []
        · rw [tcStep_emit chunkSize 0 acc x hcond hg]
          simp
        · rw [tcStep_noemit chunkSize 0 acc x hcond hg]
          simp
      · rw [tcStep_app chunkSize 0 acc x hcond]
        dsimp only
        intro _
        omega

theorem tcFoldB (chunkSize : Nat) (l : List (List Char)) :
    ∀ acc : TCAcc,
      acc.curLen = (acc.current.map List.length).sum →
      ∀ s : List Char,
        ([s] ∈ acc.chunks ∨
          (acc.current = [s] ∧ pyStrip s ≠ [] ∧ chunkSize < s.length) ∨
          (s ∈ l ∧ pyStrip s ≠ [] ∧ chunkSize < s.length)) →
        [s] ∈ tcFinish (l.foldl (tcStep chunkSize 0) acc) := by
  induction l with
  | nil =>
    intro acc _ s hsrc
    rw [List.foldl_nil]
    rcases hsrc with h | ⟨h1, _, _⟩ | ⟨h, _⟩
    · unfold tcFinish
      by_cases hcur : acc.current = []
      · rw [if_pos hcur]
        exact h
      · rw [if_neg hcur]
        exact List.mem_append.mpr (Or.inl h)
    · unfold tcFinish
      rw [if_neg (by rw [h1]; simp)]
      rw [h1]
      exact List.mem_append.mpr (Or.inr (List.mem_singleton_self _))
    · exact absurd h (List.not_mem_nil s)
  | cons x l ih =>
    intro acc hlen s hsrc
    rw [List.foldl_cons]
    apply ih (tcStep chunkSize 0 acc x) (tcStep_curLen chunkSize 0 acc x hlen)
    rcases hsrc with h | ⟨h1, h2, h3⟩ | ⟨hmem, h2, h3⟩
    · exact Or.inl (tcStep_chunks_mem chunkSize 0 acc x [s] h)
    · -- the over-long sentence alone in `current` forces an emitting close
      have hcond : chunkSize < acc.curLen + x.length := by
        rw [hlen, h1]
        simp only [List.map_cons, List.map_nil, List.sum_cons, List.sum_nil]
        omega
      have hg : pyStrip (joinSp acc.current) ≠ [] := by
        rw [h1]
        simpa [joinSp] using h2
      rw [tcStep_emit chunkSize 0 acc x hcond hg]
      rw [h1]
      exact Or.inl (List.mem_append.mpr (Or.inr (List.mem_singleton_self _)))
    · rcases List.mem_cons.mp hmem with rfl | hmem'
      · -- the over-long sentence is the one being processed: a close occurs
        have hcond : chunkSize < acc.curLen + s.length := by omega
        by_cases hg : pyStrip (joinSp acc.current) ≠ []
        · rw [tcStep_emit chunkSize 0 acc s hcond hg]
          refine Or.inr (Or.inl ⟨?_, h2, h3⟩)
          simp
        · rw [tcStep_noemit chunkSize 0 acc s hcond hg]
          refine Or.inr (Or.inl ⟨?_, h2, h3⟩)
          simp
      · exact Or.inr (Or.inr ⟨hmem', h2, h3⟩)

/-- C7 amended: with `overlap = 0` the chunker behaves exactly as claimed:
it closes and emits exactly when the next sentence would push the
cumulative character length (sum of sentence lengths) beyond `chunk_size`,
so every emitted chunk containing more than one sentence has cumulative
length at most `chunk_size`, and a single sentence longer than
`chunk_size` is emitted whole as its own singleton chunk, never truncated
or split.  With `overlap > 0` the statement fails, because the overlap
seed joins the new sentence in the fresh chunk (see the counterexample). -/
theorem C7_budget_overlap_zero (chunkSize : Nat)
    (sentences : List (List Char))
    (hs : ∀ s ∈ sentences, pyStrip s ≠ []) :
    (∀ c ∈ chunkLists chunkSize 0 sentences,
      1 < c.length → (c.map List.length).sum ≤ chunkSize) ∧
    (∀ s ∈ sentences, chunkSize < s.length →
      [s] ∈ chunkLists chunkSize 0 sentences) := by
  constructor
  · intro c hc
    exact tcFoldA chunkSize sentences ⟨[], [], 0⟩ rfl
      (by intro c hc; exact absurd hc (List.not_mem_nil c))
      (by intro h; exact absurd h (by decide)) c hc
  · intro s hsmem hlong
    exact tcFoldB chunkSize sentences ⟨[], [], 0⟩ rfl s
      (Or.inr (Or.inr ⟨hsmem, hs s hsmem, hlong⟩))

/-- Witness for C7 amended: `chunk_size = 5`, `overlap = 0`, a short pair
of sentences followed by an over-long one — the over-long sentence comes
out as its own chunk and the multi-sentence chunk stays within budget. -/
theorem C7_budget_overlap_zero_witness :
    (∀ c ∈ chunkLists 5 0 [['a', 'b'], ['c', 'd'],
        ['x', 'x', 'x', 'x', 'x', 'x', 'x']],
      1 < c.length → (c.map List.length).sum ≤ 5) ∧
    (∀ s ∈ ([['a', 'b'], ['c', 'd'], ['x', 'x', 'x', 'x', 'x', 'x', 'x']] :
        List (List Char)), 5 < s.length →
      [s] ∈ chunkLists 5 0 [['a', 'b'], ['c', 'd'],
        ['x', 'x', 'x', 'x', 'x', 'x', 'x']]) :=
  C7_budget_overlap_zero 5
    [['a', 'b'], ['c', 'd'], ['x', 'x', 'x', 'x', 'x', 'x', 'x']]
    (by decide)

/-! ## C6: overlap correctness -/

theorem rtake_length_of_le {l : List (List Char)} {o : Nat}
    (h : o ≤ l.length) : (l.rtake o).length = o := by
  simp [List.rtake]
  omega

theorem mem_of_mem_rtake {l : List (List Char)} {o : Nat} {y : List Char}
    (h : y ∈ l.rtake o) : y ∈ l := by
  rw [List.rtake] at h
  exact List.mem_of_mem_drop h

theorem tcFoldJoin (chunkSize : Nat) (l : List (List Char)) :
    ∀ acc : TCAcc,
      (∀ x ∈ l, pyStrip x ≠ []) →
      (∀ x ∈ acc.current, pyStrip x ≠ []) →
      (tcFinish (l.foldl (tcStep chunkSize 0) acc)).flatten =
        acc.chunks.flatten ++ acc.current ++ l := by
  induction l with
  | nil =>
    intro acc _ _
    rw [List.foldl_nil]
    unfold tcFinish
    by_cases hcur : acc.current = []
    · rw [if_pos hcur, hcur]
      simp
    · rw [if_neg hcur]
      simp
  | cons x l ih =>
    intro acc hl hcs
    rw [List.foldl_cons]
    have hl' : ∀ y ∈ l, pyStrip y ≠ [] :=
      fun y hy => hl y (List.mem_cons_of_mem x hy)
    by_cases hcond : chunkSize < acc.curLen + x.length
    · by_cases hcur : acc.current = []
      · have hg : ¬ pyStrip (joinSp acc.current) ≠ [] := by
          rw [hcur]
          decide
        rw [tcStep_noemit chunkSize 0 acc x hcond hg]
        refine (ih _ hl' ?_).trans ?_
        · intro y hy
          simp only [Nat.lt_irrefl, if_false, List.nil_append,
            List.mem_singleton] at hy
          subst hy
          exact hl y (List.mem_cons_self y l)
        · simp [hcur]
      · have hg := pyStrip_joinSp_ne_nil hcur hcs
        rw [tcStep_emit chunkSize 0 acc x hcond hg]
        refine (ih _ hl' ?_).trans ?_
        · intro y hy
          simp only [Nat.lt_irrefl, if_false, List.nil_append,
            List.mem_singleton] at hy
          subst hy
          exact hl y (List.mem_cons_self y l)
        · simp
    · rw [tcStep_app chunkSize 0 acc x hcond]
      refine (ih _ hl' ?_).trans ?_
      · intro y hy
        rcases List.mem_append.mp hy with h | h
        · exact hcs y h
        · rcases List.mem_singleton.mp h with rfl
          exact hl y (List.mem_cons_self y l)
      · simp

theorem tcFoldChain (chunkSize o : Nat) (ho : 0 < o) (l : List (List Char)) :
    ∀ acc : TCAcc,
      (∀ x ∈ l, pyStrip x ≠ []) →
      (∀ x ∈ acc.current, pyStrip x ≠ []) →
      acc.chunks.Chain' (fun a b => o ≤ a.length → b.take o = a.rtake o) →
      (∀ lastC ∈ acc.chunks.getLast?, o ≤ lastC.length →
        acc.current.take o = lastC.rtake o ∧ o ≤ acc.current.length) →
      (acc.current = [] → acc.chunks = []) →
      (tcFinish (l.foldl (tcStep chunkSize o) acc)).Chain'
        (fun a b => o ≤ a.length → b.take o = a.rtake o) := by
  induction l with
  | nil =>
    intro acc _ _ hchain hlast _
    rw [List.foldl_nil]
    unfold tcFinish
    by_cases hcur : acc.current = []
    · rw [if_pos hcur]
      exact hchain
    · rw [if_neg hcur]
      rw [List.chain'_append]
      refine ⟨hchain, List.chain'_singleton _, ?_⟩
      intro a ha y hy
      simp only [List.head?_cons, Option.mem_def, Option.some.injEq] at hy
      subst hy
      intro ho2
      exact (hlast a ha ho2).1
  | cons x l ih =>
    intro acc hl hcs hchain hlast hemp
    rw [List.foldl_cons]
    have hl' : ∀ y ∈ l, pyStrip y ≠ [] :=
      fun y hy => hl y (List.mem_cons_of_mem x hy)
    by_cases hcond : chunkSize < acc.curLen + x.length
    · by_cases hcur : acc.current = []
      · have hg : ¬ pyStrip (joinSp acc.current) ≠ [] := by
          rw [hcur]
          decide
        have hchunks0 : acc.chunks = [] := hemp hcur
        rw [tcStep_noemit chunkSize o acc x hcond hg]
        apply ih
        · exact hl'
        · intro y hy
          simp only [hcur, if_pos ho, List.rtake_nil, List.nil_append,
            List.mem_singleton] at hy
          subst hy
          exact hl y (List.mem_cons_self y l)
        · exact hchain
        · intro lastC hlc
          have hlc2 : lastC ∈ acc.chunks.getLast? := hlc
          rw [hchunks0] at hlc2
          simp at hlc2
        · intro _
          exact hchunks0
      · have hg := pyStrip_joinSp_ne_nil hcur hcs
        rw [tcStep_emit chunkSize o acc x hcond hg]
        apply ih
        · exact hl'
        · intro y hy
          simp only [if_pos ho, List.mem_append, List.mem_singleton] at hy
          rcases hy with h | h
          · exact hcs y (mem_of_mem_rtake h)
          · subst h
            exact hl y (List.mem_cons_self y l)
        · rw [List.chain'_append]
          refine ⟨hchain, List.chain'_singleton _, ?_⟩
          intro a ha y hy
          simp only [List.head?_cons, Option.mem_def, Option.some.injEq] at hy
          subst hy
          intro ho2
          exact (hlast a ha ho2).1
        · intro lastC hlc
          have h1 : (acc.chunks ++ [acc.current]).getLast? = some lastC :=
            Option.mem_def.mp hlc
          rw [List.getLast?_concat] at h1
          have hlc2 : lastC = acc.current := (Option.some_inj.mp h1).symm
          rw [hlc2]
          intro ho2
          show ((if 0 < o then acc.current.rtake o else []) ++ [x]).take o =
              acc.current.rtake o ∧
            o ≤ ((if 0 < o then acc.current.rtake o else []) ++ [x]).length
          rw [if_pos ho]
          have hlenr : (acc.current.rtake o).length = o :=
            rtake_length_of_le ho2
          constructor
          · rw [List.take_append_of_le_length (by rw [hlenr])]
            rw [List.take_of_length_le (by rw [hlenr])]
          · rw [List.length_append, hlenr]
            omega
        · intro habs
          simp only [if_pos ho] at habs
          exact absurd habs (by simp)
    · rw [tcStep_app chunkSize o acc x hcond]
      apply ih
      · exact hl'
      · intro y hy
        rcases List.mem_append.mp hy with h | h
        · exact hcs y h
        · rcases List.mem_singleton.mp h with rfl
          exact hl y (List.mem_cons_self y l)
      · exact hchain
      · intro lastC hlc ho2
        obtain ⟨h1, h2⟩ := hlast lastC hlc ho2
        show (acc.current ++ [x]).take o = lastC.rtake o ∧
          o ≤ (acc.current ++ [x]).length
        constructor
        · rw [List.take_append_of_le_length h2]
          exact h1
        · rw [List.length_append]
          omega
      · intro habs
        exact absurd habs (by simp)

/-- C6: on sentence sequences whose members strip to nonempty text (as
NLTK sentence tokens do), the overlap policy is as claimed: with
`overlap = o > 0`, whenever an emitted chunk holds at least `o` sentences
the next chunk's leading `o` sentences equal that chunk's trailing `o`
sentences; and with `overlap = 0` no sentences are carried over — the
emitted chunks' sentence lists concatenate back to the input sentence
sequence. -/
theorem C6_overlap_correctness (chunkSize : Nat)
    (sentences : List (List Char))
    (hs : ∀ s ∈ sentences, pyStrip s ≠ []) :
    (∀ o, 0 < o → (chunkLists chunkSize o sentences).Chain'
      (fun a b => o ≤ a.length → b.take o = a.rtake o)) ∧
    (chunkLists chunkSize 0 sentences).flatten = sentences := by
  constructor
  · intro o ho
    unfold chunkLists
    apply tcFoldChain chunkSize o ho sentences ⟨[], [], 0⟩ hs
    · intro y hy
      exact absurd hy (List.not_mem_nil y)
    · exact List.chain'_nil
    · intro lastC hlc
      simp at hlc
    · intro _
      rfl
  · unfold chunkLists
    rw [tcFoldJoin chunkSize sentences ⟨[], [], 0⟩ hs
      (by intro y hy; exact absurd hy (List.not_mem_nil y))]
    simp

/-- Witness for C6 at a concrete three-sentence input with
`chunk_size = 2`: the overlap-1 chain property and the overlap-0
concatenation property, both through the theorem. -/
theorem C6_overlap_correctness_witness :
    (chunkLists 2 1 [['a'], ['b', 'b', 'b'], ['c']]).Chain'
      (fun a b => 1 ≤ a.length → b.take 1 = a.rtake 1) ∧
    (chunkLists 2 0 [['a'], ['b', 'b', 'b'], ['c']]).flatten =
      [['a'], ['b', 'b', 'b'], ['c']] :=
  ⟨(C6_overlap_correctness 2 [['a'], ['b', 'b', 'b'], ['c']] (by decide)).1 1
      (by decide),
   (C6_overlap_correctness 2 [['a'], ['b', 'b', 'b'], ['c']] (by decide)).2⟩
